import Mathlib

/-!
Verification of the magql schema-graph / validation core against its
specification. The definitions below are a shallow embedding of
`src/magql/nodes.py`, `src/magql/schema.py` and `src/magql/scalars.py`:

* `Val` models a dynamic Python value as used for argument data and for
  `ValidationError` messages (which are a string, a list, or a dict).
* `VTree` models an entry of an `Argument`/`InputField` validator list: a
  plain validator callable, or a nested list of validators.
* `Ty`/`FieldData` model magql type objects (`NonNull`, `List`, named types,
  `InputObject` with its input fields and data validators) plus string
  forward references.
* `validate_value` and friends embed `_validate_value` and
  `_DataValidatorNode.validate`; `toType` embeds `_to_type`;
  `fieldResolve` embeds `Field.resolve`; `toGraphqlNode` /
  `toGraphqlSchema` embed the `_to_graphql` / `Schema.to_graphql` caches;
  `initTypeMap` embeds the `Schema.__init__` type-map seeding.
-/

namespace Magql

/-- Dynamic Python value: `None`, a string, an integer, a list, or a dict
with string keys. Used both for runtime input values and for
`ValidationError` messages. -/
inductive Val where
  | null
  | str (s : String)
  | int (n : Int)
  | list (xs : List Val)
  | dict (kvs : List (String × Val))

/-- Python truthiness of a `Val`, as used by `any(list_errors)`,
`if not errors[""]` and `if errors:` in the source. -/
def truthy : Val → Bool
  | Val.null => false
  | Val.str s => s != ""
  | Val.int n => n != 0
  | Val.list xs => !xs.isEmpty
  | Val.dict kvs => !kvs.isEmpty

/-- View a `Val` as the list it iterates as. The source iterates
`for item in value` only when the declared type is a list type and the
runtime value is a list (a non-list raises `TypeError` there, which is
outside the modelled behavior; all theorems supply list values). -/
def asList : Val → List Val
  | Val.list xs => xs
  | _ => []

/-- View a `Val` as the dict it is. The source passes the value of an
`InputObject`-typed item to `InputObject.validate`, which iterates it as a
mapping; all theorems supply dict values where this is exercised. -/
def asDict : Val → List (String × Val)
  | Val.dict kvs => kvs
  | _ => []

/-- One entry of an `Argument`/`InputField` validator list: either a plain
validator callable `(info, value, data)` (`info` omitted; returning
`some m` models raising `ValidationError(m)`), or a nested list of
validators, detected by `isinstance(f, list)` in `_validate_value`. -/
inductive VTree where
  | fn (f : Val → List (String × Val) → Option Val)
  | group (gs : List VTree)

mutual
/-- A magql type object as seen by `_validate_value` and `_to_type`:
a string forward reference, a named non-input type (scalar, enum, object),
an `InputObject` carrying its input fields and data validators, or the
wrapping types `NonNull` and `List`. -/
inductive Ty where
  | ref (name : String)
  | named (name : String)
  | inputObject (fields : List (String × FieldData))
      (dataValidators : List (List (String × Val) → Option Val))
  | nonNull (inner : Ty)
  | list (inner : Ty)

/-- The validation-relevant data of an `Argument` or `InputField`:
its declared type and its validator list. -/
inductive FieldData where
  | mk (type : Ty) (validators : List VTree)
end

/-- Declared type of an `Argument`/`InputField`. -/
def FieldData.ty : FieldData → Ty
  | FieldData.mk t _ => t

/-- Validator list of an `Argument`/`InputField`. -/
def FieldData.vals : FieldData → List VTree
  | FieldData.mk _ vs => vs

/-- Lookup in a Python dict modelled as an association list with unique
keys: first matching entry. -/
def dictGet {α : Type} (d : List (String × α)) (k : String) : Option α :=
  match d with
  | [] => none
  | (k2, v) :: rest => if k2 = k then some v else dictGet rest k

/-- Python `k in d`. -/
def dictHas {α : Type} (d : List (String × α)) (k : String) : Bool :=
  (dictGet d k).isSome

/-- Python `d[k] = v`: replace in place if the key exists, else append the
new key at the end (insertion order). -/
def dictSet {α : Type} (d : List (String × α)) (k : String) (v : α) :
    List (String × α) :=
  match d with
  | [] => [(k, v)]
  | (k2, v2) :: rest =>
    if k2 = k then (k2, v) :: rest else (k2, v2) :: dictSet rest k v

/-- Python `d[k].extend(vs)` on a dict of lists: extend in place. The
source only does this when `k` is known to be present; on a missing key
this model leaves the dict unchanged. -/
def dictExtend (d : List (String × List Val)) (k : String) (vs : List Val) :
    List (String × List Val) :=
  match d with
  | [] => []
  | (k2, v2) :: rest =>
    if k2 = k then (k2, v2 ++ vs) :: rest else (k2, v2) :: dictExtend rest k vs

/-- Python `del d[k]`. -/
def dictDel {α : Type} (d : List (String × α)) (k : String) :
    List (String × α) :=
  match d with
  | [] => []
  | (k2, v2) :: rest => if k2 = k then rest else (k2, v2) :: dictDel rest k

/-- Merge one key of a dict-shaped data-validator failure
(`_DataValidatorNode.validate`, the `for k, v in e.message.items()` loop):
start a list for an unseen key, then extend with a list message or append
a single message. -/
def mergeKey (errs : List (String × List Val)) (k : String) (v : Val) :
    List (String × List Val) :=
  let errs1 := if dictHas errs k then errs else errs ++ [(k, [])]
  match v with
  | Val.list xs => dictExtend errs1 k xs
  | v => dictExtend errs1 k [v]

/-- Merge one data-validator failure message into the error dict
(`_DataValidatorNode.validate`): a dict is merged key by key, a list
extends the top-level `""` entry, anything else is appended to it. -/
def mergeFailure (errs : List (String × List Val)) (m : Val) :
    List (String × List Val) :=
  match m with
  | Val.dict kvs => kvs.foldl (fun es p => mergeKey es p.1 p.2) errs
  | Val.list xs => dictExtend errs "" xs
  | m => dictExtend errs "" [m]

/-- Drop the top-level `""` key of an error dict when its list stayed
empty (`if not errors[""]: del errors[""]` in
`_DataValidatorNode.validate`; the source only reaches this with the key
present). -/
def dropEmptyKey (d : List (String × List Val)) : List (String × List Val) :=
  match dictGet d "" with
  | some [] => dictDel d ""
  | _ => d

/-- Single `NonNull` unwrap at the top of `_validate_value`
(`if isinstance(type, NonNull): type = type.type`). -/
def unwrapNonNull : Ty → Ty
  | Ty.nonNull t => t
  | t => t

/-- Whether a type is the `List` wrapping type. -/
def isListTy : Ty → Bool
  | Ty.list _ => true
  | _ => false

/-- The `while isinstance(nested_type, Wrapping)` loop of
`_validate_value`: unwrap wrapping types until the next unwrap result is a
`List` (then stop at that list) or is not a wrapping type at all. -/
def unwrapToList : Ty → Ty
  | Ty.nonNull u => if isListTy u then u else unwrapToList u
  | Ty.list u => if isListTy u then u else unwrapToList u
  | t => t

/-- Render an error dict as a `ValidationError` message value: each value
in the dict is a Python list. -/
def errsToVal (d : List (String × List Val)) : Val :=
  Val.dict (d.map (fun p => (p.1, Val.list p.2)))

theorem Val.one_le_sizeOf (v : Val) : 1 ≤ sizeOf v := by
  cases v <;> simp

theorem sizeOf_asList_le (v : Val) : sizeOf (asList v) ≤ sizeOf v := by
  cases v <;> simp [asList] <;> omega

theorem sizeOf_asDict_le (v : Val) : sizeOf (asDict v) ≤ sizeOf v := by
  cases v <;> simp [asDict] <;> omega

theorem sizeOf_dictGet_lt (d : List (String × Val)) (k : String) (v : Val)
    (h : dictGet d k = some v) : sizeOf v < sizeOf d := by
  induction d with
  | nil => simp [dictGet] at h
  | cons p rest ih =>
    obtain ⟨k2, v2⟩ := p
    simp only [dictGet] at h
    split at h
    · cases h
      simp
      omega
    · have := ih h
      simp
      omega

theorem sizeOf_unwrapNonNull_le (t : Ty) : sizeOf (unwrapNonNull t) ≤ sizeOf t := by
  cases t <;> simp [unwrapNonNull]

theorem sizeOf_unwrapToList_le : ∀ (t : Ty), sizeOf (unwrapToList t) ≤ sizeOf t
  | Ty.nonNull u => by
    simp only [unwrapToList]
    split
    · simp
    · have := sizeOf_unwrapToList_le u
      simp only [Ty.nonNull.sizeOf_spec]
      omega
  | Ty.list u => by
    simp only [unwrapToList]
    split
    · simp
    · have := sizeOf_unwrapToList_le u
      simp only [Ty.list.sizeOf_spec]
      omega
  | Ty.ref n => by simp [unwrapToList]
  | Ty.named n => by simp [unwrapToList]
  | Ty.inputObject f d => by simp [unwrapToList]

mutual
/-- Embedding of `_validate_value` (`nodes.py`): validate one
`Argument`/`InputField` value. Unwraps a single `NonNull`, runs
`InputObject.validate` when the unwrapped type is an `InputObject`, then
walks the validator list: a nested group applies its sub-validators to
each item of the runtime list value, a plain callable applies to the whole
value. Returns `none` when no error is raised, and `some m` when the
source raises `ValidationError(m)`; the raised `m` is always a
`Val.list` of the collected errors. -/
def validate_value (ty : Ty) (validators : List VTree) (value : Val)
    (data : List (String × Val)) : Option Val :=
  let ioErrs := ioErrsOf (unwrapNonNull ty) value
  let vErrs := (vvLoop (unwrapNonNull ty) none validators value data).1
  let errors := ioErrs ++ vErrs
  if errors.isEmpty then none else some (Val.list errors)
termination_by 2 * (sizeOf ty + sizeOf validators + sizeOf value) + 1
decreasing_by
· have h1 := sizeOf_unwrapNonNull_le ty
  have h3 : (1 : Nat) ≤ sizeOf validators := by cases validators <;> simp <;> omega
  omega
· have h1 := sizeOf_unwrapNonNull_le ty
  omega

/-- The `InputObject` step at the top of `_validate_value`: when the
(`NonNull`-unwrapped) declared type is an `InputObject`, run its data
validation on the value and collect its dict-shaped failure message as
one error; for any other type nothing is collected. -/
def ioErrsOf (ty1 : Ty) (value : Val) : List Val :=
  match ty1 with
  | Ty.inputObject flds dvs =>
    match dataValidate flds dvs (asDict value) with
    | some errDict => [errsToVal errDict]
    | none => []
  | _ => []
termination_by 2 * (sizeOf ty1 + sizeOf value)
decreasing_by
· have h2 := sizeOf_asDict_le value
  simp only [Ty.inputObject.sizeOf_spec]
  omega

/-- The `for f in validators` loop of `_validate_value`. `nested` is the
`nested_type` local: `none` until the first nested validator group is
seen, then the unwrapped inner list type, carried (with its size bound,
needed for termination) to all later groups. Returns the errors the loop
appends and the final `nested` value. -/
def vvLoop (ty : Ty) (nested : Option {u : Ty // sizeOf u ≤ sizeOf ty})
    (validators : List VTree) (value : Val) (data : List (String × Val)) :
    List Val × Option {u : Ty // sizeOf u ≤ sizeOf ty} :=
  match validators with
  | [] => ([], nested)
  | VTree.group g :: rest =>
    match nested with
    | some s =>
      let listErrors := vvItems s.1 g (asList value) data
      let here := if listErrors.any truthy then [Val.list listErrors] else []
      let (restErrs, accOut) := vvLoop ty (some s) rest value data
      (here ++ restErrs, accOut)
    | none =>
      let nt := unwrapToList ty
      let listErrors := vvItems nt g (asList value) data
      let here := if listErrors.any truthy then [Val.list listErrors] else []
      let (restErrs, accOut) :=
        vvLoop ty (some ⟨nt, sizeOf_unwrapToList_le ty⟩) rest value data
      (here ++ restErrs, accOut)
  | VTree.fn f :: rest =>
    let here : List Val :=
      match f value data with
      | none => []
      | some (Val.list xs) => xs
      | some m => [m]
    let (restErrs, accOut) := vvLoop ty nested rest value data
    (here ++ restErrs, accOut)
termination_by 2 * (sizeOf ty + sizeOf validators + sizeOf value)
decreasing_by
all_goals
  simp only [List.cons.sizeOf_spec, VTree.group.sizeOf_spec, VTree.fn.sizeOf_spec]
  first
  | (have hs := s.2
     have ha := sizeOf_asList_le value
     omega)
  | (have hu := sizeOf_unwrapToList_le ty
     have ha := sizeOf_asList_le value
     omega)
  | omega

/-- The `for item in value` loop inside the nested-group branch of
`_validate_value`: recursively validate each item against the unwrapped
inner type `nt` and the group's sub-validator list, extending with a
list-shaped failure message, appending a non-list failure message, and
appending the `None` placeholder for an item with no errors. (The
recursive call always raises a list, so the append branch is dead in the
source as well.) -/
def vvItems (nt : Ty) (g : List VTree) (items : List Val)
    (data : List (String × Val)) : List Val :=
  match items with
  | [] => []
  | item :: rest =>
    let here : List Val :=
      match validate_value nt g item data with
      | some (Val.list xs) => xs
      | some m => [m]
      | none => [Val.null]
    here ++ vvItems nt g rest data
termination_by 2 * (sizeOf nt + sizeOf g + sizeOf items) + 1
decreasing_by
all_goals
  simp only [List.cons.sizeOf_spec]
  omega

/-- Embedding of `_DataValidatorNode.validate` (`nodes.py`): validate a
collection of named values (a `Field`'s arguments or an `InputObject`'s
input fields). Starts the error dict as `{"": []}`, validates the
individual items, folds the node's data validators over the data merging
their failure messages, drops the `""` key if its list stayed empty, and
raises (returns `some`) exactly when the final dict is non-empty. -/
def dataValidate (items : List (String × FieldData))
    (dataValidators : List (List (String × Val) → Option Val))
    (data : List (String × Val)) : Option (List (String × List Val)) :=
  let e1 := dvItems items data [("", [])]
  let e2 := dataValidators.foldl (fun es f =>
      match f data with
      | none => es
      | some m => mergeFailure es m) e1
  let e3 := dropEmptyKey e2
  if e3.isEmpty then none else some e3
termination_by 2 * (sizeOf items + sizeOf data) + 1
decreasing_by
· omega

/-- The per-item loop of `_DataValidatorNode.validate`: for each declared
item present in the input data, validate its value; a failure sets
`errors[name]` to the failure's message (always a list there). -/
def dvItems (items : List (String × FieldData)) (data : List (String × Val))
    (errs : List (String × List Val)) : List (String × List Val) :=
  match items with
  | [] => errs
  | (name, FieldData.mk fty fvs) :: rest =>
    match h : dictGet data name with
    | none => dvItems rest data errs
    | some v =>
      match validate_value fty fvs v data with
      | none => dvItems rest data errs
      | some m => dvItems rest data (dictSet errs name (asList m))
termination_by 2 * (sizeOf items + sizeOf data)
decreasing_by
all_goals
  simp only [List.cons.sizeOf_spec, Prod.mk.sizeOf_spec, FieldData.mk.sizeOf_spec]
  first
  | (have hv := sizeOf_dictGet_lt data name v h
     omega)
  | omega
end

/-- The two wrapping classes that `_to_type` collects in its `wrappers`
list while stripping markers. -/
inductive WrapKind where
  | nonNull
  | list
deriving DecidableEq

/-- Apply one wrapping class to a type (`w(out)` in `_to_type`). -/
def applyWrap : WrapKind → Ty → Ty
  | WrapKind.nonNull, t => Ty.nonNull t
  | WrapKind.list, t => Ty.list t

/-- The `while True` marker-stripping loop of `_to_type`: a trailing `!`
(checked first) strips to `value[:-1]` recording `NonNull`; otherwise a
leading `[` strips to `value[1:-1]` recording `List`; otherwise stop.
Returns the bare name and the wrappers in strip order. The source indexes
`value[-1]` and would fail on an empty string; this model stops there
(no theorem exercises that case). -/
def stripWrappers (value : List Char) (wrappers : List WrapKind) :
    List Char × List WrapKind :=
  match value with
  | [] => ([], wrappers)
  | c :: cs =>
    if (c :: cs).getLast? = some '!' then
      stripWrappers (c :: cs).dropLast (wrappers ++ [WrapKind.nonNull])
    else if c = '[' then
      stripWrappers cs.dropLast (wrappers ++ [WrapKind.list])
    else
      (c :: cs, wrappers)
termination_by value.length
decreasing_by
all_goals simp
all_goals omega

/-- Embedding of `_to_type` (`nodes.py`): a non-string value is returned
unchanged; a string reference is stripped of its markers, the bare name is
looked up in the type map (the stripped bare string itself is used when
the lookup fails), and the stripped wrappers are re-applied by popping
from the end of the wrapper list (outermost marker applied last, i.e.
outermost in the result). -/
def toType (value : Ty) (typeMap : List (String × Ty)) : Ty :=
  match value with
  | Ty.ref s =>
    let sw := stripWrappers s.toList []
    let bare : String := String.mk sw.1
    let out : Ty :=
      match dictGet typeMap bare with
      | some t => t
      | none => Ty.ref bare
    sw.2.foldr applyWrap out
  | t => t

/-- Build the marker string for a wrapper stack (outermost wrapper first)
around a bare type name: `NonNull` appends a trailing `!`, `List`
surrounds with `[` and `]`. This is the reference-syntax writer used to
state the round-trip property of `_to_type`. -/
def renderRef (ws : List WrapKind) (name : List Char) : List Char :=
  match ws with
  | [] => name
  | WrapKind.nonNull :: rest => renderRef rest name ++ ['!']
  | WrapKind.list :: rest => '[' :: (renderRef rest name ++ [']'])

/-- Apply a wrapper stack (outermost first) around a type. -/
def applyWraps (ws : List WrapKind) (t : Ty) : Ty :=
  ws.foldr applyWrap t

/-- Unwrap a wrapper stack in reverse construction order: peel the
outermost wrapper for each entry of the stack, in stack order. Returns
`none` if the type does not carry the expected wrapper. -/
def unwrapRef (ws : List WrapKind) (t : Ty) : Option Ty :=
  match ws, t with
  | [], t => some t
  | WrapKind.nonNull :: rest, Ty.nonNull u => unwrapRef rest u
  | WrapKind.list :: rest, Ty.list u => unwrapRef rest u
  | _, _ => none

/-- Exception raised by a pipeline stage of `Field.resolve`: either a
`ValidationError` carrying its message, or any other exception
(identified opaquely). -/
inductive Exc where
  | validation (m : Val)
  | other (id : Nat)

/-- Externally visible outcome of `Field.resolve`: a resolved value, a
`graphql.GraphQLError` with its fixed marker message and its `extensions`
payload, or an exception that propagates uncaught. -/
inductive Outcome where
  | ok (v : Val)
  | gqlError (marker : String) (extensions : Val)
  | uncaught (id : Nat)

/-- The stages of the `Field.resolve` pipeline, used to record which
stages actually ran. -/
inductive Stage where
  | preHook
  | argValidation
  | resolver
deriving DecidableEq

/-- Normalization of a caught `ValidationError` message in
`Field.resolve`: a bare string becomes `{"": [message]}`, a bare list
becomes `{"": list}`, anything else (in particular a mapping) is kept
as-is. -/
def normalizeMsg : Val → Val
  | Val.str s => Val.dict [("", Val.list [Val.str s])]
  | Val.list xs => Val.dict [("", Val.list xs)]
  | m => m

/-- Convert an exception escaping the `try` body of `Field.resolve`:
a `ValidationError` is converted to a `graphql.GraphQLError` with the
fixed marker message and the normalized message as extensions; any other
exception propagates uncaught. -/
def handleExc : Exc → Outcome
  | Exc.validation m => Outcome.gqlError "magql argument validation" (normalizeMsg m)
  | Exc.other id => Outcome.uncaught id

/-- Embedding of `Field.resolve` (`nodes.py`): run the optional pre-hook,
then argument validation, then the user resolver, stopping at the first
exception, which is handled by the single `except ValidationError` at
this boundary. The stage outcomes are passed in as values (`Except.error`
models the stage raising). Also returns the list of stages that ran, in
order. -/
def fieldResolve (pre : Option (Except Exc Unit)) (validateRes : Except Exc Unit)
    (resolveRes : Except Exc Val) : Outcome × List Stage :=
  match pre with
  | some (Except.error e) => (handleExc e, [Stage.preHook])
  | _ =>
    let preTrace : List Stage := if pre.isSome then [Stage.preHook] else []
    match validateRes with
    | Except.error e => (handleExc e, preTrace ++ [Stage.argValidation])
    | Except.ok _ =>
      match resolveRes with
      | Except.error e =>
        (handleExc e, preTrace ++ [Stage.argValidation, Stage.resolver])
      | Except.ok v => (Outcome.ok v, preTrace ++ [Stage.argValidation, Stage.resolver])

/-- The first exception raised along the `Field.resolve` pipeline, in
stage order, if any. Reference definition used to characterize
`fieldResolve`. -/
def pipelineFirstError (pre : Option (Except Exc Unit))
    (validateRes : Except Exc Unit) (resolveRes : Except Exc Val) : Option Exc :=
  match pre with
  | some (Except.error e) => some e
  | _ =>
    match validateRes with
    | Except.error e => some e
    | Except.ok _ =>
      match resolveRes with
      | Except.error e => some e
      | Except.ok _ => none

/-- State of the per-node compile cache `_graphql_node`
(`Node._to_graphql`): the id of the already-built GraphQL-Core object, if
any, plus a supply of fresh object ids (two distinct builds would never
produce the identical object). -/
structure NodeCacheState where
  cache : Option Nat
  freshId : Nat

/-- Embedding of `Node._to_graphql` (`nodes.py`): build the GraphQL-Core
node on the first call, store it in `_graphql_node`, and return the
stored object on every call once it is set (including a re-entrant call
through a cyclic reference, which happens after the cache slot is filled
because child conversion is deferred to lazy `fields=lambda` thunks). -/
def toGraphqlNode (s : NodeCacheState) : Nat × NodeCacheState :=
  match s.cache with
  | some v => (v, s)
  | none => (s.freshId, { cache := some s.freshId, freshId := s.freshId + 1 })

/-- Lexicographic code-point comparison of character lists, mirroring how
Python compares strings (`sorted` on `str`). -/
def lexLeChars : List Char → List Char → Bool
  | [], _ => true
  | _ :: _, [] => false
  | a :: as, b :: bs =>
    if a.toNat < b.toNat then true
    else if a.toNat = b.toNat then lexLeChars as bs
    else false

/-- Python string ordering (`sorted` uses code-point lexicographic
comparison). -/
def pyStrLe (a b : String) : Bool := lexLeChars a.toList b.toList

/-- State of a `Schema` at the point `to_graphql` runs: the type map as
left by the `_find_nodes` resolution pass (a `none` value records a name
that was referenced but never defined), and the `_graphql_schema` compile
cache. The `_find_nodes` traversal itself is not modelled; its resulting
type map is this state's input. -/
structure SchemaState where
  typeMap : List (String × Option Ty)
  graphqlSchema : Option Nat

/-- Names with no definition in the type map, in map order
(`k for k, v in self.type_map.items() if v is None`). -/
def unmappedNames (tm : List (String × Option Ty)) : List String :=
  (tm.filter (fun p => p.2.isNone)).map Prod.fst

/-- The `KeyError` message of `Schema.to_graphql` for undefined type
names, built from the already-sorted name list. -/
def undefinedTypesMessage (names : List String) : String :=
  "Could not find definitions for the following type names: " ++
    String.intercalate ", "
      (names.map (fun n => String.singleton (Char.ofNat 39) ++ n ++
        String.singleton (Char.ofNat 39))) ++
    ". All types must be defined somewhere in the graph, or passed when" ++
    " creating the Schema."

/-- Embedding of `Schema.to_graphql` (`schema.py`): return the cached
schema if one was already built; otherwise collect the sorted list of
undefined type names and raise a single `KeyError` naming all of them
(leaving the state unchanged, so nothing is cached), or build the schema,
cache it and return it. The construction of the GraphQL-Core schema
object from the query/mutation roots is abstracted to a fresh object id. -/
def toGraphqlSchema (s : SchemaState) (freshId : Nat) :
    Except String Nat × SchemaState :=
  match s.graphqlSchema with
  | some g => (Except.ok g, s)
  | none =>
    let unmapped := List.insertionSort (fun a b => pyStrLe a b = true)
      (unmappedNames s.typeMap)
    if unmapped.isEmpty then
      (Except.ok freshId, { s with graphqlSchema := some freshId })
    else
      (Except.error (undefinedTypesMessage unmapped), s)

/-- A named type as passed to `Schema.__init__`, with an identity tag so
that two distinct type objects with the same name can be told apart. -/
structure NamedT where
  name : String
  uid : Nat
deriving DecidableEq

/-- The magql default scalars, in the order of
`scalars.default_scalars: [DateTime, JSON, Upload]`. -/
def magqlDefaultScalars : List NamedT :=
  [⟨"DateTime", 0⟩, ⟨"JSON", 1⟩, ⟨"Upload", 2⟩]

/-- The graphql default scalars, in the order of
`scalars.graphql_default_scalars: [String, Int, Float, Boolean, ID]`. -/
def graphqlDefaultScalars : List NamedT :=
  [⟨"String", 3⟩, ⟨"Int", 4⟩, ⟨"Float", 5⟩, ⟨"Boolean", 6⟩, ⟨"ID", 7⟩]

/-- Python `d[k] = v` for the `NamedT` type map (same dict semantics as
`dictSet`). -/
def dictSetN (d : List (String × NamedT)) (k : String) (v : NamedT) :
    List (String × NamedT) :=
  match d with
  | [] => [(k, v)]
  | (k2, v2) :: rest =>
    if k2 = k then (k2, v) :: rest else (k2, v2) :: dictSetN rest k v

/-- Lookup in the `NamedT` type map. -/
def dictGetN (d : List (String × NamedT)) (k : String) : Option NamedT :=
  match d with
  | [] => none
  | (k2, v) :: rest => if k2 = k then some v else dictGetN rest k

/-- Embedding of the type-map seeding in `Schema.__init__` (`schema.py`):
`for item in itertools.chain(scalars.default_scalars, types,
scalars.graphql_default_scalars): self.type_map[item.name] = item`. -/
def initTypeMap (types : List NamedT) : List (String × NamedT) :=
  ((magqlDefaultScalars ++ types) ++ graphqlDefaultScalars).foldl
    (fun m item => dictSetN m item.name item) []

/-- The last element of a list satisfying a predicate, if any. Used to
state the last-writer-wins behavior of the type-map seeding. -/
def lastSuchThat (l : List NamedT) (p : NamedT → Bool) : Option NamedT :=
  match l with
  | [] => none
  | x :: rest =>
    match lastSuchThat rest p with
    | some t => some t
    | none => if p x then some x else none

/-- Spec-side definition for the claimed error merge of
`_DataValidatorNode.validate`, following the specification text: per-item
failures set `errors[itemName]` to the failure's message. Unlike the
source, it starts from the empty mapping (the spec says start with `{}`),
so the top-level `""` key is not pre-seeded. -/
def specItemErrors (items : List (String × FieldData))
    (data : List (String × Val)) : List (String × List Val) :=
  dvItems items data []

/-- Spec-side helper: file a list of top-level messages under the
empty-string key, creating the key when it is not present yet (the spec
starts from `{}`, so the key need not exist). -/
def specExtendEmptyKey (es : List (String × List Val)) (vs : List Val) :
    List (String × List Val) :=
  let es1 := if dictHas es "" then es else es ++ [("", [])]
  dictExtend es1 "" vs

/-- Spec-side definition for merging one data-validator failure, following
the specification text: a mapping is merged key by key (list values
extend, other values append); a list or scalar failure goes under the
empty-string key. -/
def specMergeFailure (es : List (String × List Val)) (m : Val) :
    List (String × List Val) :=
  match m with
  | Val.dict kvs => kvs.foldl (fun es p => mergeKey es p.1 p.2) es
  | Val.list xs => specExtendEmptyKey es xs
  | m => specExtendEmptyKey es [m]

/-- Spec-side definition of the full merged error mapping described by the
specification for `_DataValidatorNode.validate`: start with `{}`, set
per-item failures, merge each data-validator failure, drop the
empty-string key when it ended up empty. -/
def specBuiltErrors (items : List (String × FieldData))
    (dataValidators : List (List (String × Val) → Option Val))
    (data : List (String × Val)) : List (String × List Val) :=
  let e1 := specItemErrors items data
  let e2 := dataValidators.foldl (fun es f =>
      match f data with
      | none => es
      | some m => specMergeFailure es m) e1
  dropEmptyKey e2

/-- Whether the keys of an error dict are pairwise distinct. Python dicts
always satisfy this; the association-list model preserves it through every
operation the source performs. -/
def keysNodup {α : Type} (d : List (String × α)) : Prop :=
  (d.map Prod.fst).Nodup

/-- Concrete value validator that always fails with message `"a"`. -/
def alwaysFailA : Val → List (String × Val) → Option Val :=
  fun _ _ => some (Val.str "a")

/-- Concrete value validator that always fails with message `"b"`. -/
def alwaysFailB : Val → List (String × Val) → Option Val :=
  fun _ _ => some (Val.str "b")

/-- Concrete value validator checking that a string value is lowercase
(the nested-group example of the specification). -/
def lowerCheck : Val → List (String × Val) → Option Val :=
  fun v _ =>
    match v with
    | Val.str s =>
      if s.toList.all (fun c => c.isLower) then none
      else some (Val.str "must be lowercase")
    | _ => none

theorem lexLeChars_total (a b : List Char) :
    lexLeChars a b = true ∨ lexLeChars b a = true := by
  induction a generalizing b with
  | nil => left; rfl
  | cons x xs ih =>
    cases b with
    | nil => right; rfl
    | cons y ys =>
      simp only [lexLeChars]
      rcases Nat.lt_trichotomy x.toNat y.toNat with h | h | h
      · left; simp [h]
      · rcases ih ys with h2 | h2
        · left; simp [h, h2]
        · right; simp [h.symm, h2, Nat.lt_irrefl]
      · right; simp [h]

theorem lexLeChars_trans (a b c : List Char) (h1 : lexLeChars a b = true)
    (h2 : lexLeChars b c = true) : lexLeChars a c = true := by
  induction a generalizing b c with
  | nil => rfl
  | cons x xs ih =>
    cases b with
    | nil => simp [lexLeChars] at h1
    | cons y ys =>
      cases c with
      | nil => simp [lexLeChars] at h2
      | cons z zs =>
        simp only [lexLeChars] at h1 h2 ⊢
        split at h1
        · rename_i hxy
          split at h2
          · rename_i hyz
            simp [Nat.lt_trans hxy hyz]
          · split at h2
            · rename_i hyz
              simp [hyz ▸ hxy]
            · exact absurd h2 (by simp)
        · split at h1
          · rename_i hxy
            split at h2
            · rename_i hyz
              simp [hxy ▸ hyz]
            · split at h2
              · rename_i hyz
                have hxz : x.toNat = z.toNat := hxy.trans hyz
                simp [hxz, Nat.lt_irrefl, ih ys zs h1 h2]
              · exact absurd h2 (by simp)
          · exact absurd h1 (by simp)

instance pyStrLeIsTotal : IsTotal String (fun a b => pyStrLe a b = true) :=
  ⟨fun a b => lexLeChars_total a.toList b.toList⟩

instance pyStrLeIsTrans : IsTrans String (fun a b => pyStrLe a b = true) :=
  ⟨fun a b c => lexLeChars_trans a.toList b.toList c.toList⟩

theorem unmappedNames_mem (tm : List (String × Option Ty)) (n : String) :
    n ∈ unmappedNames tm ↔ (n, (none : Option Ty)) ∈ tm := by
  simp only [unmappedNames, List.mem_map, List.mem_filter]
  constructor
  · rintro ⟨⟨n2, v⟩, ⟨hmem, hnone⟩, rfl⟩
    cases v
    · exact hmem
    · simp at hnone
  · intro hmem
    exact ⟨(n, none), ⟨hmem, rfl⟩, rfl⟩

/-- C7: compiling a schema twice returns the identical compiled schema
object (reference equality, modelled by object id), and calling a node's
compile accessor again once its cache is filled — as any second or
re-entrant call on a cyclic self-reference does — returns the identical
compiled node object. -/
theorem C7_idempotent_compile :
    (∀ (s : NodeCacheState),
      toGraphqlNode (toGraphqlNode s).2 = ((toGraphqlNode s).1, (toGraphqlNode s).2)) ∧
    (∀ (s : SchemaState) (f g : Nat) (s1 : SchemaState),
      toGraphqlSchema s f = (Except.ok g, s1) →
      ∀ (f2 : Nat), toGraphqlSchema s1 f2 = (Except.ok g, s1)) := by
  constructor
  · intro s
    cases h : s.cache with
    | some v => simp [toGraphqlNode, h]
    | none => simp [toGraphqlNode, h]
  · intro s f g s1 h f2
    unfold toGraphqlSchema at h
    cases hc : s.graphqlSchema with
    | some g0 =>
      rw [hc] at h
      injection h with h1 h2
      injection h1 with h1
      subst h1
      subst h2
      unfold toGraphqlSchema
      simp [hc]
    | none =>
      rw [hc] at h
      by_cases he : (List.insertionSort (fun a b => pyStrLe a b = true)
          (unmappedNames s.typeMap)).isEmpty = true
      · rw [if_pos he] at h
        injection h with h1 h2
        injection h1 with h1
        subst h1
        subst h2
        unfold toGraphqlSchema
        simp
      · rw [if_neg he] at h
        injection h with h1 h2
        injection h1

/-- C7 witness: compiling a concrete fresh schema state and compiling the
resulting state again yields the identical compiled schema. -/
theorem C7_idempotent_compile_witness :
    toGraphqlSchema { typeMap := [], graphqlSchema := none } 0 =
      (Except.ok 0, { typeMap := [], graphqlSchema := some 0 }) ∧
    toGraphqlSchema { typeMap := [], graphqlSchema := some 0 } 5 =
      (Except.ok 0, { typeMap := [], graphqlSchema := some 0 }) := by
  have h1 : toGraphqlSchema { typeMap := [], graphqlSchema := none } 0 =
      (Except.ok 0, { typeMap := [], graphqlSchema := some 0 }) := rfl
  exact ⟨h1, C7_idempotent_compile.2 _ 0 0 _ h1 5⟩

/-- C5: a `ValidationError` raised at any stage of `Field.resolve` is
caught at this boundary and converted into exactly one error object with
the fixed marker message `"magql argument validation"` and the message
normalized to a mapping (string wrapped as the singleton list under the
empty key, list filed under the empty key, mapping kept); any other
exception propagates uncaught. -/
theorem C5_resolve_error_boundary (pre : Option (Except Exc Unit))
    (validateRes : Except Exc Unit) (resolveRes : Except Exc Val) :
    (∀ m, pipelineFirstError pre validateRes resolveRes = some (Exc.validation m) →
      (fieldResolve pre validateRes resolveRes).1 =
        Outcome.gqlError "magql argument validation" (normalizeMsg m)) ∧
    (∀ i, pipelineFirstError pre validateRes resolveRes = some (Exc.other i) →
      (fieldResolve pre validateRes resolveRes).1 = Outcome.uncaught i) ∧
    (∀ v, pipelineFirstError pre validateRes resolveRes = none →
      resolveRes = Except.ok v →
      (fieldResolve pre validateRes resolveRes).1 = Outcome.ok v) ∧
    (∀ s ext, (fieldResolve pre validateRes resolveRes).1 = Outcome.gqlError s ext →
      s = "magql argument validation") ∧
    (∀ i, (fieldResolve pre validateRes resolveRes).1 = Outcome.uncaught i →
      pipelineFirstError pre validateRes resolveRes = some (Exc.other i)) ∧
    (∀ s, normalizeMsg (Val.str s) = Val.dict [("", Val.list [Val.str s])]) ∧
    (∀ xs, normalizeMsg (Val.list xs) = Val.dict [("", Val.list xs)]) ∧
    (∀ kvs, normalizeMsg (Val.dict kvs) = Val.dict kvs) := by
  refine ⟨?_, ?_, ?_, ?_, ?_, fun s => rfl, fun xs => rfl, fun kvs => rfl⟩ <;>
  · rcases pre with _ | p
    · rcases validateRes with e2 | u
      · rcases e2 <;> intros <;>
          simp_all [fieldResolve, pipelineFirstError, handleExc]
      · rcases resolveRes with e3 | v
        · rcases e3 <;> intros <;>
            simp_all [fieldResolve, pipelineFirstError, handleExc]
        · intros <;> simp_all [fieldResolve, pipelineFirstError, handleExc]
    · rcases p with e1 | u1
      · rcases e1 <;> intros <;>
          simp_all [fieldResolve, pipelineFirstError, handleExc]
      · rcases validateRes with e2 | u
        · rcases e2 <;> intros <;>
            simp_all [fieldResolve, pipelineFirstError, handleExc]
        · rcases resolveRes with e3 | v
          · rcases e3 <;> intros <;>
              simp_all [fieldResolve, pipelineFirstError, handleExc]
          · intros <;> simp_all [fieldResolve, pipelineFirstError, handleExc]

/-- C5 witness: a validation failure in the pre-hook with a bare string
message surfaces as the single marker error with the normalized mapping
payload. -/
theorem C5_resolve_error_boundary_witness :
    (fieldResolve (some (Except.error (Exc.validation (Val.str "x"))))
        (Except.ok ()) (Except.ok Val.null)).1 =
      Outcome.gqlError "magql argument validation"
        (Val.dict [("", Val.list [Val.str "x"])]) := by
  have h := (C5_resolve_error_boundary
    (some (Except.error (Exc.validation (Val.str "x"))))
    (Except.ok ()) (Except.ok Val.null)).1 (Val.str "x") rfl
  exact h

/-- C9: when the registered pre-hook raises a `ValidationError`, the
pipeline short-circuits: the outcome does not depend on the argument
validation or resolver stages, and the recorded trace shows that neither
stage ran. -/
theorem C9_prehook_short_circuit (m : Val) (val val' : Except Exc Unit)
    (res res' : Except Exc Val) :
    fieldResolve (some (Except.error (Exc.validation m))) val res =
      fieldResolve (some (Except.error (Exc.validation m))) val' res' ∧
    (fieldResolve (some (Except.error (Exc.validation m))) val res).2 =
      [Stage.preHook] ∧
    Stage.argValidation ∉
      (fieldResolve (some (Except.error (Exc.validation m))) val res).2 ∧
    Stage.resolver ∉
      (fieldResolve (some (Except.error (Exc.validation m))) val res).2 := by
  refine ⟨rfl, rfl, ?_, ?_⟩ <;> simp [fieldResolve]

theorem dictGetN_dictSetN (d : List (String × NamedT)) (k : String) (v : NamedT)
    (n : String) :
    dictGetN (dictSetN d k v) n = if k = n then some v else dictGetN d n := by
  induction d with
  | nil => simp [dictSetN, dictGetN]
  | cons p rest ih =>
    obtain ⟨k2, v2⟩ := p
    by_cases hk : k2 = k
    · subst hk
      by_cases hn : k2 = n <;> simp [dictSetN, dictGetN, hn]
    · by_cases hn : k2 = n
      · subst hn
        have : ¬k = k2 := fun h => hk h.symm
        simp [dictSetN, dictGetN, hk, this]
      · simp [dictSetN, dictGetN, hk, hn, ih]

theorem dictGetN_foldl_set (l : List NamedT) (init : List (String × NamedT))
    (n : String) :
    dictGetN (l.foldl (fun m item => dictSetN m item.name item) init) n =
      match lastSuchThat l (fun t => t.name = n) with
      | some t => some t
      | none => dictGetN init n := by
  induction l generalizing init with
  | nil => simp [lastSuchThat]
  | cons x rest ih =>
    simp only [List.foldl_cons, lastSuchThat]
    rw [ih]
    cases h : lastSuchThat rest (fun t => t.name = n) with
    | some t => simp
    | none =>
      simp only [dictGetN_dictSetN]
      by_cases hx : x.name = n <;> simp [hx]

theorem lastSuchThat_append (a b : List NamedT) (p : NamedT → Bool) :
    lastSuchThat (a ++ b) p =
      match lastSuchThat b p with
      | some t => some t
      | none => lastSuchThat a p := by
  induction a with
  | nil =>
    simp only [List.nil_append]
    cases h : lastSuchThat b p <;> simp [lastSuchThat, h]
  | cons x rest ih =>
    simp only [List.cons_append, lastSuchThat, List.append_eq]
    rw [ih]
    cases h : lastSuchThat b p with
    | some t => simp
    | none => cases h2 : lastSuchThat rest p <;> simp

theorem lastSuchThat_ne_none (l : List NamedT) (p : NamedT → Bool) (x : NamedT)
    (hx : x ∈ l) (hpx : p x = true) : lastSuchThat l p ≠ none := by
  induction l with
  | nil => cases hx
  | cons y rest ih =>
    simp only [lastSuchThat]
    cases h : lastSuchThat rest p with
    | some t => simp
    | none =>
      rcases List.mem_cons.mp hx with rfl | hmem
      · simp [hpx]
      · exact absurd h (ih hmem)

theorem lastSuchThat_eq_none (l : List NamedT) (p : NamedT → Bool)
    (h : ∀ x ∈ l, p x = false) : lastSuchThat l p = none := by
  induction l with
  | nil => rfl
  | cons x rest ih =>
    simp only [lastSuchThat]
    rw [ih (fun y hy => h y (List.mem_cons_of_mem x hy))]
    simp [h x (List.mem_cons_self x rest)]

/-- C10: the initial type map is seeded in the order magql default
scalars, then the passed-in types, then the graphql default scalars, with
later entries overwriting earlier ones of the same name; so a name lookup
returns the last seeded entry of that name, a name of a graphql default
scalar always resolves to that built-in scalar, and otherwise the last
passed-in type of that name wins over the magql defaults. -/
theorem C10_type_map_seeding (types : List NamedT) (n : String) :
    dictGetN (initTypeMap types) n =
      lastSuchThat ((magqlDefaultScalars ++ types) ++ graphqlDefaultScalars)
        (fun t => t.name = n) ∧
    ((∃ g ∈ graphqlDefaultScalars, g.name = n) →
      dictGetN (initTypeMap types) n =
        lastSuchThat graphqlDefaultScalars (fun t => t.name = n)) ∧
    ((∀ g ∈ graphqlDefaultScalars, g.name ≠ n) →
      dictGetN (initTypeMap types) n =
        match lastSuchThat types (fun t => t.name = n) with
        | some t => some t
        | none => lastSuchThat magqlDefaultScalars (fun t => t.name = n)) := by
  have hmain : dictGetN (initTypeMap types) n =
      lastSuchThat ((magqlDefaultScalars ++ types) ++ graphqlDefaultScalars)
        (fun t => t.name = n) := by
    unfold initTypeMap
    rw [dictGetN_foldl_set]
    cases h : lastSuchThat ((magqlDefaultScalars ++ types) ++ graphqlDefaultScalars)
        (fun t => t.name = n) <;> simp [h, dictGetN]
  refine ⟨hmain, ?_, ?_⟩
  · rintro ⟨g, hg, hgn⟩
    rw [hmain, lastSuchThat_append]
    have hne : lastSuchThat graphqlDefaultScalars (fun t => t.name = n) ≠ none :=
      lastSuchThat_ne_none graphqlDefaultScalars _ g hg (by simp [hgn])
    cases h : lastSuchThat graphqlDefaultScalars (fun t => t.name = n) with
    | some t => simp
    | none => exact absurd h hne
  · intro hno
    rw [hmain, lastSuchThat_append,
      lastSuchThat_eq_none graphqlDefaultScalars _
        (fun g hg => by simp [hno g hg]),
      lastSuchThat_append]

/-- C6: when the resolution pass leaves names mapped to no definition, the
first compile returns a single error whose message is built from the list
of all undefined names sorted by name (the sorted list contains exactly
the undefined names), and no compiled schema is produced or cached: the
state is unchanged. -/
theorem C6_undefined_types_batched (s : SchemaState) (f : Nat) (n0 : String)
    (hfirst : s.graphqlSchema = none)
    (hn0 : (n0, (none : Option Ty)) ∈ s.typeMap) :
    (toGraphqlSchema s f).1 =
      Except.error (undefinedTypesMessage
        (List.insertionSort (fun a b => pyStrLe a b = true)
          (unmappedNames s.typeMap))) ∧
    (toGraphqlSchema s f).2 = s ∧
    List.Sorted (fun a b => pyStrLe a b = true)
      (List.insertionSort (fun a b => pyStrLe a b = true)
        (unmappedNames s.typeMap)) ∧
    (∀ n, n ∈ List.insertionSort (fun a b => pyStrLe a b = true)
        (unmappedNames s.typeMap) ↔ (n, (none : Option Ty)) ∈ s.typeMap) := by
  have hmem : n0 ∈ List.insertionSort (fun a b => pyStrLe a b = true)
      (unmappedNames s.typeMap) :=
    ((List.perm_insertionSort _ _).mem_iff).mpr ((unmappedNames_mem _ _).mpr hn0)
  have hne : ¬(List.insertionSort (fun a b => pyStrLe a b = true)
      (unmappedNames s.typeMap)).isEmpty = true := by
    intro hempty
    rw [List.isEmpty_iff] at hempty
    rw [hempty] at hmem
    cases hmem
  unfold toGraphqlSchema
  rw [hfirst, if_neg hne]
  exact ⟨rfl, rfl, List.sorted_insertionSort _ _,
    fun n => by rw [(List.perm_insertionSort _ _).mem_iff, unmappedNames_mem]⟩

/-- C6 witness: two distinct undefined names, inserted in reverse order,
produce the single error message naming both in sorted order, and the
state is unchanged (nothing cached). -/
theorem C6_undefined_types_batched_witness :
    (toGraphqlSchema ⟨[("B", none), ("A", none)], none⟩ 0).1 =
      Except.error (undefinedTypesMessage ["A", "B"]) ∧
    (toGraphqlSchema ⟨[("B", none), ("A", none)], none⟩ 0).2 =
      (⟨[("B", none), ("A", none)], none⟩ : SchemaState) := by
  have h := C6_undefined_types_batched
    ⟨[("B", none), ("A", none)], none⟩ 0 "B" rfl (List.mem_cons_self _ _)
  exact ⟨h.1, h.2.1⟩

theorem renderRef_ne_nil (ws : List WrapKind) (name : List Char)
    (h : name ≠ []) : renderRef ws name ≠ [] := by
  cases ws with
  | nil => exact h
  | cons w rest => cases w <;> simp [renderRef]

theorem stripWrappers_cons (c : Char) (cs : List Char) (acc : List WrapKind) :
    stripWrappers (c :: cs) acc =
      if (c :: cs).getLast? = some '!' then
        stripWrappers (c :: cs).dropLast (acc ++ [WrapKind.nonNull])
      else if c = '[' then
        stripWrappers cs.dropLast (acc ++ [WrapKind.list])
      else (c :: cs, acc) := by
  rw [stripWrappers]

theorem stripWrappers_renderRef (ws : List WrapKind) (name : List Char)
    (hne : name ≠ []) (hlast : name.getLast? ≠ some '!')
    (hhead : name.head? ≠ some '[') (acc : List WrapKind) :
    stripWrappers (renderRef ws name) acc = (name, acc ++ ws) := by
  induction ws generalizing acc with
  | nil =>
    obtain ⟨c, cs, rfl⟩ := List.exists_cons_of_ne_nil hne
    simp only [renderRef]
    rw [stripWrappers]
    have hh : c ≠ '[' := by
      intro hcontra
      exact hhead (by rw [List.head?_cons, hcontra])
    rw [if_neg hlast, if_neg hh]
    simp
  | cons w rest ih =>
    cases w with
    | nonNull =>
      simp only [renderRef]
      obtain ⟨c, cs, hl⟩ :=
        List.exists_cons_of_ne_nil (renderRef_ne_nil rest name hne)
      rw [hl, List.cons_append, stripWrappers]
      have hg : (c :: (cs ++ ['!'])).getLast? = some '!' := by
        rw [← List.cons_append]
        exact List.getLast?_concat _
      rw [if_pos hg]
      have hd : (c :: (cs ++ ['!'])).dropLast = c :: cs := by
        rw [← List.cons_append]
        exact List.dropLast_concat
      rw [hd, ← hl, ih (acc ++ [WrapKind.nonNull])]
      simp
    | list =>
      simp only [renderRef]
      obtain ⟨c, cs, hl⟩ :=
        List.exists_cons_of_ne_nil (renderRef_ne_nil rest name hne)
      rw [hl, stripWrappers_cons]
      have hg : ('[' :: ((c :: cs) ++ [']'])).getLast? = some ']' := by
        rw [← List.cons_append]
        exact List.getLast?_concat _
      rw [if_neg (by rw [hg]; decide), if_pos rfl]
      have hd : ((c :: cs) ++ [']']).dropLast = c :: cs :=
        List.dropLast_concat
      rw [hd, ← hl, ih (acc ++ [WrapKind.list])]
      simp

theorem unwrapRef_applyWraps (ws : List WrapKind) (t : Ty) :
    unwrapRef ws (applyWraps ws t) = some t := by
  induction ws with
  | nil => rfl
  | cons w rest ih => cases w <;> simp [applyWraps, unwrapRef, applyWrap, ih] <;>
      exact ih

theorem toType_renderRef (ws : List WrapKind) (name : List Char)
    (tm : List (String × Ty)) (hne : name ≠ [])
    (hlast : name.getLast? ≠ some '!') (hhead : name.head? ≠ some '[') :
    toType (Ty.ref (String.mk (renderRef ws name))) tm =
      applyWraps ws
        (match dictGet tm (String.mk name) with
          | some t => t
          | none => Ty.ref (String.mk name)) := by
  simp only [toType]
  rw [show (String.mk (renderRef ws name)).toList = renderRef ws name from rfl]
  rw [stripWrappers_renderRef ws name hne hlast hhead []]
  simp [applyWraps]

/-- C3: resolving a marker string built from any wrapper stack around a
marker-free bare name strips the markers iteratively, looks up the bare
name, and re-applies the stripped wrappers in reverse order of stripping,
so the resolved type is the wrapper stack applied around the looked-up
type; and unwrapping a wrapped type in reverse recovers the inner type. -/
theorem C3_wrapping_round_trip (ws : List WrapKind) (name : List Char)
    (tm : List (String × Ty)) (t : Ty) (hne : name ≠ [])
    (hlast : name.getLast? ≠ some '!') (hhead : name.head? ≠ some '[') :
    (toType (Ty.ref (String.mk (renderRef ws name))) tm =
      applyWraps ws
        (match dictGet tm (String.mk name) with
          | some u => u
          | none => Ty.ref (String.mk name))) ∧
    unwrapRef ws (applyWraps ws t) = some t :=
  ⟨toType_renderRef ws name tm hne hlast hhead, unwrapRef_applyWraps ws t⟩

/-- C3 witness: with `"User"` mapped to the `User` type, resolving
`"[User!]!"` yields non-null of list of non-null of `User`, and unwrapping
in reverse recovers `User`. -/
theorem C3_wrapping_round_trip_witness :
    String.mk (renderRef [WrapKind.nonNull, WrapKind.list, WrapKind.nonNull]
      "User".toList) = "[User!]!" ∧
    toType (Ty.ref "[User!]!") [("User", Ty.named "User")] =
      Ty.nonNull (Ty.list (Ty.nonNull (Ty.named "User"))) ∧
    unwrapRef [WrapKind.nonNull, WrapKind.list, WrapKind.nonNull]
      (Ty.nonNull (Ty.list (Ty.nonNull (Ty.named "User")))) =
      some (Ty.named "User") := by
  have h := C3_wrapping_round_trip
    [WrapKind.nonNull, WrapKind.list, WrapKind.nonNull] "User".toList
    [("User", Ty.named "User")] (Ty.named "User")
    (by decide) (by decide) (by decide)
  exact ⟨by decide, h.1, h.2⟩

/-- C4 counterexample: with an empty type map, resolving the marked
reference `"User!"` does not leave the reference unchanged: it produces a
`NonNull` wrapper around the bare-name string `"User"` instead of the
original string `"User!"`. -/
theorem C4_marked_ref_not_unchanged_counterexample :
    toType (Ty.ref "User!") [] = Ty.nonNull (Ty.ref "User") ∧
    toType (Ty.ref "User!") [] ≠ Ty.ref "User!" := by
  have h := toType_renderRef [WrapKind.nonNull] "User".toList []
    (by decide) (by decide) (by decide)
  refine ⟨h, ?_⟩
  rw [show toType (Ty.ref "User!") [] = Ty.nonNull (Ty.ref "User") from h]
  intro hcontra
  exact Ty.noConfusion hcontra

/-- C4 (amended): `apply_resolved_types` rewrites a string reference by
stripping its markers, resolving the bare name through the type map and
re-applying the stripped wrappers: a marker-free reference is replaced by
the map entry when one exists and left as the same string otherwise, while
a reference carrying markers is always rewritten to wrapper objects —
around the map entry when present, around the bare-name string when
absent. Non-string values are left unchanged. -/
theorem C4_apply_resolved_types_amended (name : List Char)
    (ws : List WrapKind) (tm : List (String × Ty)) (hne : name ≠ [])
    (hlast : name.getLast? ≠ some '!') (hhead : name.head? ≠ some '[') :
    (dictGet tm (String.mk name) = none →
      toType (Ty.ref (String.mk name)) tm = Ty.ref (String.mk name)) ∧
    (∀ u, dictGet tm (String.mk name) = some u →
      toType (Ty.ref (String.mk name)) tm = u) ∧
    (toType (Ty.ref (String.mk (renderRef ws name))) tm =
      applyWraps ws
        (match dictGet tm (String.mk name) with
          | some u => u
          | none => Ty.ref (String.mk name))) ∧
    (∀ t : Ty, (∀ s, t ≠ Ty.ref s) → toType t tm = t) := by
  refine ⟨?_, ?_, toType_renderRef ws name tm hne hlast hhead, ?_⟩
  · intro hnone
    have h := toType_renderRef [] name tm hne hlast hhead
    rw [hnone] at h
    exact h
  · intro u hu
    have h := toType_renderRef [] name tm hne hlast hhead
    rw [hu] at h
    exact h
  · intro t ht
    cases t with
    | ref s => exact absurd rfl (ht s)
    | _ => rfl

/-- C4 witness: a marker-free reference with no map entry is left
unchanged, and one with an entry resolves to the entry. -/
theorem C4_apply_resolved_types_amended_witness :
    toType (Ty.ref "User") [] = Ty.ref "User" ∧
    toType (Ty.ref "User") [("User", Ty.named "User")] = Ty.named "User" := by
  constructor
  · exact (C4_apply_resolved_types_amended "User".toList [] []
      (by decide) (by decide) (by decide)).1 rfl
  · exact (C4_apply_resolved_types_amended "User".toList []
      [("User", Ty.named "User")] (by decide) (by decide) (by decide)).2.1
      (Ty.named "User") rfl

theorem dictGet_dictSet_self {α : Type} (d : List (String × α)) (k : String)
    (v : α) : dictGet (dictSet d k v) k = some v := by
  induction d with
  | nil => simp [dictSet, dictGet]
  | cons p rest ih =>
    obtain ⟨k2, v2⟩ := p
    by_cases h : k2 = k <;> simp [dictSet, dictGet, h, ih]

theorem dictGet_dictSet_other {α : Type} (d : List (String × α)) (k : String)
    (v : α) (k' : String) (h : k' ≠ k) :
    dictGet (dictSet d k v) k' = dictGet d k' := by
  induction d with
  | nil => simp [dictSet, dictGet, Ne.symm h]
  | cons p rest ih =>
    obtain ⟨k2, v2⟩ := p
    by_cases h2 : k2 = k
    · subst h2
      simp [dictSet, dictGet, Ne.symm h]
    · by_cases h3 : k2 = k' <;> simp [dictSet, dictGet, h2, h3, ih, h]

theorem dictGet_append {α : Type} (d1 d2 : List (String × α)) (k : String) :
    dictGet (d1 ++ d2) k =
      match dictGet d1 k with
      | some v => some v
      | none => dictGet d2 k := by
  induction d1 with
  | nil => simp [dictGet]
  | cons p rest ih =>
    obtain ⟨k2, v2⟩ := p
    by_cases h : k2 = k <;> simp [dictGet, h, ih]

theorem dictGet_append_new {α : Type} (d : List (String × α)) (k k' : String)
    (v : α) (h : k' ≠ k) : dictGet (d ++ [(k, v)]) k' = dictGet d k' := by
  rw [dictGet_append]
  cases hx : dictGet d k' <;> simp [dictGet, Ne.symm h]

theorem dictGet_dictExtend_self (d : List (String × List Val)) (k : String)
    (vs : List Val) (l : List Val) (h : dictGet d k = some l) :
    dictGet (dictExtend d k vs) k = some (l ++ vs) := by
  induction d with
  | nil => simp [dictGet] at h
  | cons p rest ih =>
    obtain ⟨k2, v2⟩ := p
    simp only [dictGet] at h
    by_cases h2 : k2 = k
    · rw [if_pos h2] at h
      injection h with h
      subst h
      simp [dictExtend, dictGet, h2]
    · rw [if_neg h2] at h
      simp [dictExtend, dictGet, h2, ih h]

theorem dictGet_dictExtend_other (d : List (String × List Val)) (k : String)
    (vs : List Val) (k' : String) (h : k' ≠ k) :
    dictGet (dictExtend d k vs) k' = dictGet d k' := by
  induction d with
  | nil => rfl
  | cons p rest ih =>
    obtain ⟨k2, v2⟩ := p
    by_cases h2 : k2 = k
    · subst h2
      simp [dictExtend, dictGet, Ne.symm h]
    · by_cases h3 : k2 = k' <;> simp [dictExtend, dictGet, h2, h3, ih, h]

theorem map_fst_dictExtend (d : List (String × List Val)) (k : String)
    (vs : List Val) : (dictExtend d k vs).map Prod.fst = d.map Prod.fst := by
  induction d with
  | nil => rfl
  | cons p rest ih =>
    obtain ⟨k2, v2⟩ := p
    by_cases h2 : k2 = k <;> simp [dictExtend, h2, ih]

theorem dictGet_eq_none_iff {α : Type} (d : List (String × α)) (k : String) :
    dictGet d k = none ↔ k ∉ d.map Prod.fst := by
  induction d with
  | nil => simp [dictGet]
  | cons p rest ih =>
    obtain ⟨k2, v2⟩ := p
    by_cases h : k2 = k
    · subst h
      simp [dictGet]
    · simp [dictGet, h, ih, (show k ≠ k2 from fun hh => h hh.symm)]

theorem mem_map_fst_dictSet {α : Type} (d : List (String × α)) (k : String)
    (v : α) (a : String) :
    a ∈ (dictSet d k v).map Prod.fst ↔ a ∈ d.map Prod.fst ∨ a = k := by
  induction d with
  | nil => simp [dictSet]
  | cons p rest ih =>
    obtain ⟨k2, v2⟩ := p
    by_cases h2 : k2 = k
    · subst h2
      simp [dictSet, List.mem_cons]
      tauto
    · simp [dictSet, h2, List.mem_cons, ih]
      tauto

theorem keysNodup_dictSet {α : Type} (d : List (String × α)) (k : String)
    (v : α) (h : keysNodup d) : keysNodup (dictSet d k v) := by
  induction d with
  | nil => simp [keysNodup, dictSet]
  | cons p rest ih =>
    obtain ⟨k2, v2⟩ := p
    simp only [keysNodup, List.map_cons, List.nodup_cons] at h
    by_cases h2 : k2 = k
    · subst h2
      have hset : dictSet ((k2, v2) :: rest) k2 v = (k2, v) :: rest := by
        simp [dictSet]
      rw [hset]
      simpa [keysNodup, List.nodup_cons] using h
    · simp only [keysNodup, dictSet, if_neg h2, List.map_cons, List.nodup_cons]
      refine ⟨?_, ih h.2⟩
      rw [mem_map_fst_dictSet]
      rintro (hh | rfl)
      · exact h.1 hh
      · exact h2 rfl

theorem keysNodup_dictExtend (d : List (String × List Val)) (k : String)
    (vs : List Val) (h : keysNodup d) : keysNodup (dictExtend d k vs) := by
  rw [keysNodup, map_fst_dictExtend]
  exact h

theorem keysNodup_append_new {α : Type} (d : List (String × α)) (k : String)
    (v : α) (h : keysNodup d) (hk : dictGet d k = none) :
    keysNodup (d ++ [(k, v)]) := by
  rw [keysNodup, List.map_append, List.nodup_append]
  refine ⟨h, by simp, ?_⟩
  intro a ha hb
  simp only [List.map_cons, List.map_nil, List.mem_singleton] at hb
  subst hb
  exact (dictGet_eq_none_iff d a).mp hk ha

theorem dictGet_dictDel_other {α : Type} (d : List (String × α)) (k k' : String)
    (h : k' ≠ k) : dictGet (dictDel d k) k' = dictGet d k' := by
  induction d with
  | nil => rfl
  | cons p rest ih =>
    obtain ⟨k2, v2⟩ := p
    by_cases h2 : k2 = k
    · subst h2
      simp [dictDel, dictGet, Ne.symm h]
    · by_cases h3 : k2 = k' <;> simp [dictDel, dictGet, h2, h3, ih, h]

theorem dictGet_dictDel_self {α : Type} (d : List (String × α)) (k : String)
    (h : keysNodup d) : dictGet (dictDel d k) k = none := by
  induction d with
  | nil => rfl
  | cons p rest ih =>
    obtain ⟨k2, v2⟩ := p
    simp only [keysNodup, List.map_cons, List.nodup_cons] at h
    by_cases h2 : k2 = k
    · subst h2
      simp only [dictDel, if_pos rfl]
      rw [dictGet_eq_none_iff]
      exact h.1
    · simp [dictDel, dictGet, h2, ih h.2]

theorem dict_nil_of_get_none {α : Type} (d : List (String × α))
    (h : ∀ k, dictGet d k = none) : d = [] := by
  cases d with
  | nil => rfl
  | cons p rest =>
    obtain ⟨k, v⟩ := p
    have := h k
    simp [dictGet] at this

theorem ioErrsOf_not_io (ty1 : Ty) (value : Val)
    (h : ∀ flds dvs, ty1 ≠ Ty.inputObject flds dvs) :
    ioErrsOf ty1 value = [] := by
  cases ty1 <;> first
  | exact absurd rfl (h _ _)
  | simp [ioErrsOf]

theorem validate_value_eq (ty : Ty) (fs : List VTree) (value : Val)
    (data : List (String × Val)) :
    validate_value ty fs value data =
      if (ioErrsOf (unwrapNonNull ty) value ++
          (vvLoop (unwrapNonNull ty) none fs value data).1).isEmpty
      then none
      else some (Val.list (ioErrsOf (unwrapNonNull ty) value ++
        (vvLoop (unwrapNonNull ty) none fs value data).1)) := by
  rw [validate_value]

theorem dvItems_nil (data : List (String × Val))
    (errs : List (String × List Val)) : dvItems [] data errs = errs := by
  rw [dvItems]

theorem dvItems_cons_absent (name : String) (fty : Ty) (fvs : List VTree)
    (rest : List (String × FieldData)) (data : List (String × Val))
    (errs : List (String × List Val)) (h : dictGet data name = none) :
    dvItems ((name, FieldData.mk fty fvs) :: rest) data errs =
      dvItems rest data errs := by
  rw [dvItems]
  split
  · rfl
  · rename_i v h2
    rw [h] at h2
    cases h2

theorem dvItems_cons_pass (name : String) (fty : Ty) (fvs : List VTree)
    (rest : List (String × FieldData)) (data : List (String × Val))
    (errs : List (String × List Val)) (v : Val)
    (hg : dictGet data name = some v)
    (hv : validate_value fty fvs v data = none) :
    dvItems ((name, FieldData.mk fty fvs) :: rest) data errs =
      dvItems rest data errs := by
  rw [dvItems]
  split
  · rename_i h2
    simp [hg] at h2
  · rename_i v2 h2
    rw [hg] at h2
    injection h2 with h2
    subst h2
    rw [hv]

theorem dvItems_cons_fail (name : String) (fty : Ty) (fvs : List VTree)
    (rest : List (String × FieldData)) (data : List (String × Val))
    (errs : List (String × List Val)) (v m : Val)
    (hg : dictGet data name = some v)
    (hv : validate_value fty fvs v data = some m) :
    dvItems ((name, FieldData.mk fty fvs) :: rest) data errs =
      dvItems rest data (dictSet errs name (asList m)) := by
  rw [dvItems]
  split
  · rename_i h2
    simp [hg] at h2
  · rename_i v2 h2
    rw [hg] at h2
    injection h2 with h2
    subst h2
    rw [hv]

/-- C8: the unwrapped inner type used for nested validator groups is
computed at the first group and reused for every later group: once
`nested_type` is set it is never changed by the rest of the loop, and
running the loop with `nested_type` unset produces the same errors as
running it with `nested_type` pre-seeded to the unwrap of the declared
type — the value the first group computes. -/
theorem C8_first_seen_nested_type (ty : Ty) (validators : List VTree)
    (value : Val) (data : List (String × Val))
    (s : {u : Ty // sizeOf u ≤ sizeOf ty}) :
    (vvLoop ty (some s) validators value data).2 = some s ∧
    (vvLoop ty none validators value data).1 =
      (vvLoop ty (some ⟨unwrapToList ty, sizeOf_unwrapToList_le ty⟩)
        validators value data).1 := by
  constructor
  · induction validators with
    | nil => simp [vvLoop]
    | cons f rest ih =>
      cases f with
      | group g => simp only [vvLoop]; exact ih
      | fn f => simp only [vvLoop]; exact ih
  · induction validators with
    | nil => simp [vvLoop]
    | cons f rest ih =>
      cases f with
      | group g => simp only [vvLoop]
      | fn f =>
        simp only [vvLoop]
        rw [ih]

/-- C8 witness: a concrete run with two nested groups — the accumulator
stays at the first-computed inner type, and the unset-accumulator run
produces the same errors as the pre-seeded one. -/
theorem C8_first_seen_nested_type_witness :
    (vvLoop (Ty.list (Ty.named "S"))
        (some ⟨unwrapToList (Ty.list (Ty.named "S")),
          sizeOf_unwrapToList_le (Ty.list (Ty.named "S"))⟩)
        [VTree.group [], VTree.group []] (Val.list []) []).2 =
      some ⟨unwrapToList (Ty.list (Ty.named "S")),
        sizeOf_unwrapToList_le (Ty.list (Ty.named "S"))⟩ ∧
    (vvLoop (Ty.list (Ty.named "S")) none
        [VTree.group [], VTree.group []] (Val.list []) []).1 =
      (vvLoop (Ty.list (Ty.named "S"))
        (some ⟨unwrapToList (Ty.list (Ty.named "S")),
          sizeOf_unwrapToList_le (Ty.list (Ty.named "S"))⟩)
        [VTree.group [], VTree.group []] (Val.list []) []).1 :=
  C8_first_seen_nested_type (Ty.list (Ty.named "S"))
    [VTree.group [], VTree.group []] (Val.list []) []
    ⟨unwrapToList (Ty.list (Ty.named "S")),
      sizeOf_unwrapToList_le (Ty.list (Ty.named "S"))⟩

/-- C9 witness: a concrete pre-hook validation failure yields the same
outcome whatever the later stages would have done, and the trace records
only the pre-hook. -/
theorem C9_prehook_short_circuit_witness :
    fieldResolve (some (Except.error (Exc.validation (Val.str "x"))))
        (Except.ok ()) (Except.ok Val.null) =
      fieldResolve (some (Except.error (Exc.validation (Val.str "x"))))
        (Except.error (Exc.other 7)) (Except.ok (Val.str "y")) ∧
    (fieldResolve (some (Except.error (Exc.validation (Val.str "x"))))
        (Except.ok ()) (Except.ok Val.null)).2 = [Stage.preHook] := by
  have h := C9_prehook_short_circuit (Val.str "x") (Except.ok ())
    (Except.error (Exc.other 7)) (Except.ok Val.null) (Except.ok (Val.str "y"))
  exact ⟨h.1, h.2.1⟩

/-- C1 counterexample: a nested validator group whose sub-list holds two
validators that both fail on the single input item produces a parallel
list with two entries for a one-item input, so the produced list is not
the same length as the input value. -/
theorem C1_parallel_length_counterexample :
    validate_value (Ty.list (Ty.named "String"))
        [VTree.group [VTree.fn alwaysFailA, VTree.fn alwaysFailB]]
        (Val.list [Val.str "x"]) [] =
      some (Val.list [Val.list [Val.str "a", Val.str "b"]]) ∧
    [Val.str "a", Val.str "b"].length ≠ [Val.str "x"].length := by
  constructor
  · simp [validate_value, vvLoop, vvItems, ioErrsOf, unwrapNonNull,
      unwrapToList, isListTy, asList, truthy, alwaysFailA, alwaysFailB]
  · decide

/-- C1 (amended): for a nested validator group over a runtime list value,
each passing item contributes one `null` entry and each failing item
contributes its error messages in order, one entry per message — so the
parallel list has the same length as the input exactly when every failing
item raises a single message, and in that case each position holds `null`
for a passing item and the item's message for a failing one; the group
contributes exactly one entry (the parallel list) to the item's error
list when at least one entry is truthy, and contributes nothing when
every entry is null. -/
theorem C1_nested_group_parallel (ty : Ty) (g : List VTree)
    (items : List Val) (data : List (String × Val))
    (hsingle : ∀ it ∈ items, ∀ m,
      validate_value (unwrapToList (unwrapNonNull ty)) g it data = some m →
      ∃ e, m = Val.list [e])
    (hio : ∀ flds dvs, unwrapNonNull ty ≠ Ty.inputObject flds dvs) :
    (vvItems (unwrapToList (unwrapNonNull ty)) g items data).length =
      items.length ∧
    (∀ i it, items.get? i = some it →
      (validate_value (unwrapToList (unwrapNonNull ty)) g it data = none →
        (vvItems (unwrapToList (unwrapNonNull ty)) g items data).get? i =
          some Val.null) ∧
      (∀ e, validate_value (unwrapToList (unwrapNonNull ty)) g it data =
          some (Val.list [e]) →
        (vvItems (unwrapToList (unwrapNonNull ty)) g items data).get? i =
          some e)) ∧
    (validate_value ty [VTree.group g] (Val.list items) data =
      if (vvItems (unwrapToList (unwrapNonNull ty)) g items data).any truthy
      then some (Val.list
        [Val.list (vvItems (unwrapToList (unwrapNonNull ty)) g items data)])
      else none) := by
  refine ⟨?_, ?_, ?_⟩
  · induction items with
    | nil => simp [vvItems]
    | cons item rest ih =>
      have hlen : ∀ here : List Val,
          (here ++ vvItems (unwrapToList (unwrapNonNull ty)) g rest data).length
            = here.length +
              (vvItems (unwrapToList (unwrapNonNull ty)) g rest data).length :=
        fun here => List.length_append _ _
      rw [vvItems]
      cases hv : validate_value (unwrapToList (unwrapNonNull ty)) g item data with
      | none =>
        simp only [hv, List.length_cons]
        rw [List.singleton_append, List.length_cons,
          ih (fun it hit => hsingle it (List.mem_cons_of_mem _ hit))]
      | some m =>
        obtain ⟨e, rfl⟩ := hsingle item (List.mem_cons_self _ _) m hv
        simp only [hv, List.length_cons]
        rw [List.singleton_append, List.length_cons,
          ih (fun it hit => hsingle it (List.mem_cons_of_mem _ hit))]
  · induction items with
    | nil => intro i it h; simp at h
    | cons item rest ih =>
      intro i it hget
      cases i with
      | zero =>
        injection hget with hh
        subst hh
        rw [vvItems]
        cases hv : validate_value (unwrapToList (unwrapNonNull ty)) g item data with
        | none =>
          refine ⟨fun _ => by simp, fun e he => by simp at he⟩
        | some m =>
          obtain ⟨e, rfl⟩ := hsingle item (List.mem_cons_self _ _) m hv
          refine ⟨fun hnone => by simp at hnone, fun e2 he2 => ?_⟩
          have he3 : e = e2 := by simpa using he2
          subst he3
          simp
      | succ j =>
        have hget2 : rest.get? j = some it := hget
        have hres := ih
          (fun it2 hit2 => hsingle it2 (List.mem_cons_of_mem _ hit2)) j it hget2
        rw [vvItems]
        cases hv : validate_value (unwrapToList (unwrapNonNull ty)) g item data with
        | none =>
          exact ⟨fun h0 => by simpa using hres.1 h0,
            fun e he => by simpa using hres.2 e he⟩
        | some m =>
          obtain ⟨e, rfl⟩ := hsingle item (List.mem_cons_self _ _) m hv
          exact ⟨fun h0 => by simpa using hres.1 h0,
            fun e2 he2 => by simpa using hres.2 e2 he2⟩
  · rw [validate_value_eq, ioErrsOf_not_io _ _ hio]
    simp only [vvLoop, asList, List.nil_append]
    by_cases hany :
        (vvItems (unwrapToList (unwrapNonNull ty)) g items data).any truthy
    · simp [hany]
    · simp [hany]

/-- C1 witness: the specification's own example — a list-of-string
argument with one nested lowercase group, input `["A", "b"]` — yields the
parallel list with the failure message at the first position and null at
the second, contributed as one entry; and the parallel list has the same
length as the input. -/
theorem C1_nested_group_parallel_witness :
    validate_value (Ty.list (Ty.named "String"))
        [VTree.group [VTree.fn lowerCheck]]
        (Val.list [Val.str "A", Val.str "b"]) [] =
      some (Val.list [Val.list [Val.str "must be lowercase", Val.null]]) ∧
    (vvItems (Ty.named "String") [VTree.fn lowerCheck]
        [Val.str "A", Val.str "b"] []).length =
      [Val.str "A", Val.str "b"].length := by
  have eA : validate_value (Ty.named "String") [VTree.fn lowerCheck]
      (Val.str "A") [] = some (Val.list [Val.str "must be lowercase"]) := by
    simp [validate_value, vvLoop, ioErrsOf, unwrapNonNull, lowerCheck]
  have eb : validate_value (Ty.named "String") [VTree.fn lowerCheck]
      (Val.str "b") [] = none := by
    simp [validate_value, vvLoop, ioErrsOf, unwrapNonNull, lowerCheck]
  have hnt : unwrapToList (unwrapNonNull (Ty.list (Ty.named "String"))) =
      Ty.named "String" := rfl
  have h := C1_nested_group_parallel (Ty.list (Ty.named "String"))
    [VTree.fn lowerCheck] [Val.str "A", Val.str "b"] []
    (by
      intro it hit m hm
      rcases List.mem_cons.mp hit with rfl | hit2
      · rw [hnt, eA] at hm
        injection hm with hm
        exact ⟨Val.str "must be lowercase", hm.symm⟩
      · rcases List.mem_cons.mp hit2 with rfl | hit3
        · rw [hnt, eb] at hm
          cases hm
        · cases hit3)
    (by intro flds dvs h; cases h)
  have hle : vvItems (Ty.named "String") [VTree.fn lowerCheck]
      [Val.str "A", Val.str "b"] [] =
      [Val.str "must be lowercase", Val.null] := by
    rw [vvItems, eA, vvItems, eb, vvItems]
    rfl
  constructor
  · have h3 := h.2.2
    rw [hnt, hle] at h3
    rw [h3]
    rfl
  · have h1 := h.1
    rw [hnt] at h1
    exact h1

/-- C10 witness: a passed-in type named `DateTime` replaces the magql
default scalar, while a passed-in type named `String` is overridden by the
graphql built-in scalar. -/
theorem C10_type_map_seeding_witness :
    (∀ g ∈ graphqlDefaultScalars, g.name ≠ "DateTime") ∧
    (∃ g ∈ graphqlDefaultScalars, g.name = "String") ∧
    dictGetN (initTypeMap [⟨"DateTime", 10⟩, ⟨"String", 11⟩]) "DateTime" =
      some ⟨"DateTime", 10⟩ ∧
    dictGetN (initTypeMap [⟨"DateTime", 10⟩, ⟨"String", 11⟩]) "String" =
      some ⟨"String", 3⟩ := by
  refine ⟨by decide, by decide, ?_, ?_⟩
  · have h := (C10_type_map_seeding [⟨"DateTime", 10⟩, ⟨"String", 11⟩]
      "DateTime").2.2 (by decide)
    rw [h]
    decide
  · have h := (C10_type_map_seeding [⟨"DateTime", 10⟩, ⟨"String", 11⟩]
      "String").2.1 (by decide)
    rw [h]
    decide

/-- Relation between the source's error dict (which pre-seeds the
top-level `""` key with an empty list) and the specification's error
mapping (which starts empty): all non-top-level keys agree, the top-level
key agrees or is the still-empty pre-seeded list on the source side only,
the source side always has the top-level key, and both sides have
Python-dict-unique keys. -/
def MergeRel (es ps : List (String × List Val)) : Prop :=
  (∀ k, k ≠ "" → dictGet es k = dictGet ps k) ∧
  (dictGet es "" = dictGet ps "" ∨
    (dictGet es "" = some [] ∧ dictGet ps "" = none)) ∧
  (dictGet es "").isSome = true ∧
  keysNodup es ∧ keysNodup ps

theorem MergeRel_init : MergeRel [("", [])] [] := by
  refine ⟨fun k hk => ?_, Or.inr ⟨rfl, rfl⟩, rfl, ?_, ?_⟩
  · simp [dictGet, Ne.symm hk]
  · simp [keysNodup]
  · simp [keysNodup]

theorem MergeRel_dictSet (es ps : List (String × List Val)) (k : String)
    (v : List Val) (h : MergeRel es ps) :
    MergeRel (dictSet es k v) (dictSet ps k v) := by
  obtain ⟨h1, h2, h3, h4, h5⟩ := h
  refine ⟨?_, ?_, ?_, keysNodup_dictSet _ _ _ h4, keysNodup_dictSet _ _ _ h5⟩
  · intro k' hk'
    by_cases he : k' = k
    · subst he
      rw [dictGet_dictSet_self, dictGet_dictSet_self]
    · rw [dictGet_dictSet_other _ _ _ _ he, dictGet_dictSet_other _ _ _ _ he]
      exact h1 k' hk'
  · by_cases he : k = ""
    · subst he
      left
      rw [dictGet_dictSet_self, dictGet_dictSet_self]
    · rw [dictGet_dictSet_other _ _ _ _ (fun hh => he hh.symm),
        dictGet_dictSet_other _ _ _ _ (fun hh => he hh.symm)]
      exact h2
  · by_cases he : k = ""
    · subst he
      rw [dictGet_dictSet_self]
      rfl
    · rw [dictGet_dictSet_other _ _ _ _ (fun hh => he hh.symm)]
      exact h3

theorem MergeRel_dvItems (items : List (String × FieldData))
    (data : List (String × Val)) (es ps : List (String × List Val))
    (h : MergeRel es ps) :
    MergeRel (dvItems items data es) (dvItems items data ps) := by
  induction items generalizing es ps with
  | nil => simpa [dvItems] using h
  | cons p rest ih =>
    obtain ⟨name, fd⟩ := p
    obtain ⟨fty, fvs⟩ := fd
    cases hg : dictGet data name with
    | none =>
      rw [dvItems_cons_absent _ _ _ _ _ _ hg, dvItems_cons_absent _ _ _ _ _ _ hg]
      exact ih _ _ h
    | some v =>
      cases hv : validate_value fty fvs v data with
      | none =>
        rw [dvItems_cons_pass _ _ _ _ _ _ _ hg hv,
          dvItems_cons_pass _ _ _ _ _ _ _ hg hv]
        exact ih _ _ h
      | some m =>
        rw [dvItems_cons_fail _ _ _ _ _ _ _ _ hg hv,
          dvItems_cons_fail _ _ _ _ _ _ _ _ hg hv]
        exact ih _ _ (MergeRel_dictSet _ _ _ _ h)

theorem MergeRel_fileEmpty (es ps : List (String × List Val)) (xs : List Val)
    (h : MergeRel es ps) :
    MergeRel (dictExtend es "" xs) (specExtendEmptyKey ps xs) := by
  obtain ⟨h1, h2, h3, h4, h5⟩ := h
  obtain ⟨l, hl⟩ := Option.isSome_iff_exists.mp h3
  rcases h2 with h2 | ⟨h2a, h2b⟩
  · have hps : dictGet ps "" = some l := by rw [← h2]; exact hl
    have hhas : dictHas ps "" = true := by rw [dictHas, hps]; rfl
    have hspec : specExtendEmptyKey ps xs = dictExtend ps "" xs := by
      simp [specExtendEmptyKey, hhas]
    rw [hspec]
    refine ⟨?_, Or.inl ?_, ?_, keysNodup_dictExtend _ _ _ h4,
      keysNodup_dictExtend _ _ _ h5⟩
    · intro k' hk'
      rw [dictGet_dictExtend_other _ _ _ _ hk',
        dictGet_dictExtend_other _ _ _ _ hk']
      exact h1 k' hk'
    · rw [dictGet_dictExtend_self _ _ _ _ hl,
        dictGet_dictExtend_self _ _ _ _ hps]
    · rw [dictGet_dictExtend_self _ _ _ _ hl]
      rfl
  · have hl0 : l = [] := by
      rw [hl] at h2a
      exact Option.some.inj h2a
    subst hl0
    have hhas : dictHas ps "" = false := by simp [dictHas, h2b]
    have hspec : specExtendEmptyKey ps xs =
        dictExtend (ps ++ [("", [])]) "" xs := by
      simp [specExtendEmptyKey, hhas]
    rw [hspec]
    have hpsn : dictGet (ps ++ [("", ([] : List Val))]) "" = some [] := by
      rw [dictGet_append, h2b]
      simp [dictGet]
    refine ⟨?_, Or.inl ?_, ?_, keysNodup_dictExtend _ _ _ h4,
      keysNodup_dictExtend _ _ _ (keysNodup_append_new _ _ _ h5 h2b)⟩
    · intro k' hk'
      rw [dictGet_dictExtend_other _ _ _ _ hk',
        dictGet_dictExtend_other _ _ _ _ hk',
        dictGet_append_new _ _ _ _ hk']
      exact h1 k' hk'
    · rw [dictGet_dictExtend_self _ _ _ _ hl,
        dictGet_dictExtend_self _ _ _ _ hpsn]
    · rw [dictGet_dictExtend_self _ _ _ _ hl]
      rfl

theorem MergeRel_mergeKey (es ps : List (String × List Val)) (k : String)
    (v : Val) (h : MergeRel es ps) :
    MergeRel (mergeKey es k v) (mergeKey ps k v) := by
  by_cases hk : k = ""
  · subst hk
    have hhas : dictHas es "" = true := h.2.2.1
    have harg : ∀ xs : List Val,
        MergeRel (dictExtend es "" xs) (specExtendEmptyKey ps xs) :=
      fun xs => MergeRel_fileEmpty es ps xs h
    cases v with
    | list xs =>
      have hcode : mergeKey es "" (Val.list xs) = dictExtend es "" xs := by
        simp [mergeKey, hhas]
      have hspec : mergeKey ps "" (Val.list xs) = specExtendEmptyKey ps xs := by
        simp [mergeKey, specExtendEmptyKey]
      rw [hcode, hspec]
      exact harg xs
    | null =>
      have hcode : mergeKey es "" Val.null = dictExtend es "" [Val.null] := by
        simp [mergeKey, hhas]
      have hspec : mergeKey ps "" Val.null =
          specExtendEmptyKey ps [Val.null] := by
        simp [mergeKey, specExtendEmptyKey]
      rw [hcode, hspec]
      exact harg [Val.null]
    | str s =>
      have hcode : mergeKey es "" (Val.str s) =
          dictExtend es "" [Val.str s] := by
        simp [mergeKey, hhas]
      have hspec : mergeKey ps "" (Val.str s) =
          specExtendEmptyKey ps [Val.str s] := by
        simp [mergeKey, specExtendEmptyKey]
      rw [hcode, hspec]
      exact harg [Val.str s]
    | int n =>
      have hcode : mergeKey es "" (Val.int n) =
          dictExtend es "" [Val.int n] := by
        simp [mergeKey, hhas]
      have hspec : mergeKey ps "" (Val.int n) =
          specExtendEmptyKey ps [Val.int n] := by
        simp [mergeKey, specExtendEmptyKey]
      rw [hcode, hspec]
      exact harg [Val.int n]
    | dict kvs =>
      have hcode : mergeKey es "" (Val.dict kvs) =
          dictExtend es "" [Val.dict kvs] := by
        simp [mergeKey, hhas]
      have hspec : mergeKey ps "" (Val.dict kvs) =
          specExtendEmptyKey ps [Val.dict kvs] := by
        simp [mergeKey, specExtendEmptyKey]
      rw [hcode, hspec]
      exact harg [Val.dict kvs]
  · obtain ⟨h1, h2, h3, h4, h5⟩ := h
    have hgeq : dictGet es k = dictGet ps k := h1 k hk
    have harm : ∀ xs : List Val,
        MergeRel (dictExtend (if dictHas es k then es else es ++ [(k, [])]) k xs)
          (dictExtend (if dictHas ps k then ps else ps ++ [(k, [])]) k xs) := by
      intro xs
      cases hes : dictGet es k with
      | some l =>
        have hps : dictGet ps k = some l := by rw [← hgeq]; exact hes
        have he1 : dictHas es k = true := by rw [dictHas, hes]; rfl
        have hp1 : dictHas ps k = true := by rw [dictHas, hps]; rfl
        rw [if_pos he1, if_pos hp1]
        refine ⟨?_, ?_, ?_, keysNodup_dictExtend _ _ _ h4,
          keysNodup_dictExtend _ _ _ h5⟩
        · intro k' hk'
          by_cases he : k' = k
          · subst he
            rw [dictGet_dictExtend_self _ _ _ _ hes,
              dictGet_dictExtend_self _ _ _ _ hps]
          · rw [dictGet_dictExtend_other _ _ _ _ he,
              dictGet_dictExtend_other _ _ _ _ he]
            exact h1 k' hk'
        · rw [dictGet_dictExtend_other _ _ _ _ (fun hh => hk hh.symm),
            dictGet_dictExtend_other _ _ _ _ (fun hh => hk hh.symm)]
          exact h2
        · rw [dictGet_dictExtend_other _ _ _ _ (fun hh => hk hh.symm)]
          exact h3
      | none =>
        have hps : dictGet ps k = none := by rw [← hgeq]; exact hes
        have he1 : dictHas es k = false := by rw [dictHas, hes]; rfl
        have hp1 : dictHas ps k = false := by rw [dictHas, hps]; rfl
        rw [if_neg (by rw [he1]; exact Bool.false_ne_true),
          if_neg (by rw [hp1]; exact Bool.false_ne_true)]
        have hesa : dictGet (es ++ [(k, ([] : List Val))]) k = some [] := by
          rw [dictGet_append, hes]
          simp [dictGet]
        have hpsa : dictGet (ps ++ [(k, ([] : List Val))]) k = some [] := by
          rw [dictGet_append, hps]
          simp [dictGet]
        refine ⟨?_, ?_, ?_,
          keysNodup_dictExtend _ _ _ (keysNodup_append_new _ _ _ h4 hes),
          keysNodup_dictExtend _ _ _ (keysNodup_append_new _ _ _ h5 hps)⟩
        · intro k' hk'
          by_cases he : k' = k
          · subst he
            rw [dictGet_dictExtend_self _ _ _ _ hesa,
              dictGet_dictExtend_self _ _ _ _ hpsa]
          · rw [dictGet_dictExtend_other _ _ _ _ he,
              dictGet_dictExtend_other _ _ _ _ he,
              dictGet_append_new _ _ _ _ he, dictGet_append_new _ _ _ _ he]
            exact h1 k' hk'
        · rw [dictGet_dictExtend_other _ _ _ _ (fun hh => hk hh.symm),
            dictGet_dictExtend_other _ _ _ _ (fun hh => hk hh.symm),
            dictGet_append_new _ _ _ _ (fun hh => hk hh.symm),
            dictGet_append_new _ _ _ _ (fun hh => hk hh.symm)]
          exact h2
        · rw [dictGet_dictExtend_other _ _ _ _ (fun hh => hk hh.symm),
            dictGet_append_new _ _ _ _ (fun hh => hk hh.symm)]
          exact h3
    cases v with
    | list xs =>
      simpa [mergeKey] using harm xs
    | null => simpa [mergeKey] using harm [Val.null]
    | str s => simpa [mergeKey] using harm [Val.str s]
    | int n => simpa [mergeKey] using harm [Val.int n]
    | dict kvs => simpa [mergeKey] using harm [Val.dict kvs]

theorem MergeRel_foldl_mergeKey (kvs : List (String × Val))
    (es ps : List (String × List Val)) (h : MergeRel es ps) :
    MergeRel (kvs.foldl (fun es p => mergeKey es p.1 p.2) es)
      (kvs.foldl (fun es p => mergeKey es p.1 p.2) ps) := by
  induction kvs generalizing es ps with
  | nil => simpa using h
  | cons p rest ih =>
    simp only [List.foldl_cons]
    exact ih _ _ (MergeRel_mergeKey _ _ _ _ h)

theorem MergeRel_mergeFailure (es ps : List (String × List Val)) (m : Val)
    (h : MergeRel es ps) :
    MergeRel (mergeFailure es m) (specMergeFailure ps m) := by
  cases m with
  | dict kvs =>
    simpa [mergeFailure, specMergeFailure] using MergeRel_foldl_mergeKey kvs es ps h
  | list xs =>
    simpa [mergeFailure, specMergeFailure] using MergeRel_fileEmpty es ps xs h
  | null =>
    simpa [mergeFailure, specMergeFailure] using
      MergeRel_fileEmpty es ps [Val.null] h
  | str s =>
    simpa [mergeFailure, specMergeFailure] using
      MergeRel_fileEmpty es ps [Val.str s] h
  | int n =>
    simpa [mergeFailure, specMergeFailure] using
      MergeRel_fileEmpty es ps [Val.int n] h

theorem MergeRel_foldl_dv (dvs : List (List (String × Val) → Option Val))
    (data : List (String × Val)) (es ps : List (String × List Val))
    (h : MergeRel es ps) :
    MergeRel
      (dvs.foldl (fun es f =>
        match f data with
        | none => es
        | some m => mergeFailure es m) es)
      (dvs.foldl (fun es f =>
        match f data with
        | none => es
        | some m => specMergeFailure es m) ps) := by
  induction dvs generalizing es ps with
  | nil => simpa using h
  | cons f rest ih =>
    simp only [List.foldl_cons]
    cases hf : f data with
    | none => exact ih _ _ h
    | some m => exact ih _ _ (MergeRel_mergeFailure _ _ _ h)

theorem MergeRel_dropEmptyKey_get (es ps : List (String × List Val))
    (h : MergeRel es ps) (k : String) :
    dictGet (dropEmptyKey es) k = dictGet (dropEmptyKey ps) k := by
  obtain ⟨h1, h2, h3, h4, h5⟩ := h
  obtain ⟨l, hl⟩ := Option.isSome_iff_exists.mp h3
  unfold dropEmptyKey
  rw [hl]
  cases l with
  | nil =>
    rcases h2 with h2 | ⟨h2a, h2b⟩
    · have hps : dictGet ps "" = some [] := by rw [← h2]; exact hl
      rw [hps]
      by_cases hk : k = ""
      · subst hk
        rw [dictGet_dictDel_self _ _ h4, dictGet_dictDel_self _ _ h5]
      · rw [dictGet_dictDel_other _ _ _ hk, dictGet_dictDel_other _ _ _ hk]
        exact h1 k hk
    · rw [h2b]
      by_cases hk : k = ""
      · subst hk
        rw [dictGet_dictDel_self _ _ h4, h2b]
      · rw [dictGet_dictDel_other _ _ _ hk]
        exact h1 k hk
  | cons x xs =>
    rcases h2 with h2 | ⟨h2a, h2b⟩
    · have hps : dictGet ps "" = some (x :: xs) := by rw [← h2]; exact hl
      rw [hps]
      by_cases hk : k = ""
      · subst hk
        rw [hl, hps]
      · exact h1 k hk
    · rw [hl] at h2a
      injection h2a with h2a
      cases h2a

theorem dataValidate_eq (items : List (String × FieldData))
    (dvs : List (List (String × Val) → Option Val))
    (data : List (String × Val)) :
    dataValidate items dvs data =
      if (dropEmptyKey (dvs.foldl (fun es f =>
          match f data with
          | none => es
          | some m => mergeFailure es m) (dvItems items data [("", [])]))).isEmpty
      then none
      else some (dropEmptyKey (dvs.foldl (fun es f =>
          match f data with
          | none => es
          | some m => mergeFailure es m) (dvItems items data [("", [])]))) := by
  rw [dataValidate]

theorem C2_final_helper (E3 P3 : List (String × List Val))
    (hget : ∀ k, dictGet E3 k = dictGet P3 k) :
    ((if E3.isEmpty then none else some E3) = (none : Option _) ↔ P3 = []) ∧
    (∀ E, (if E3.isEmpty then none else some E3) = some E →
      ∀ k, dictGet E k = dictGet P3 k) := by
  constructor
  · constructor
    · intro h
      by_cases he : E3.isEmpty
      · have hE : E3 = [] := List.isEmpty_iff.mp he
        apply dict_nil_of_get_none
        intro k
        rw [← hget k, hE]
        rfl
      · rw [if_neg he] at h
        cases h
    · intro h
      have hE : E3 = [] := by
        apply dict_nil_of_get_none
        intro k
        rw [hget k, h]
        rfl
      rw [hE]
      rfl
  · intro E hE k
    by_cases he : E3.isEmpty
    · rw [if_pos he] at hE
      cases hE
    · rw [if_neg he] at hE
      injection hE with hE
      subst hE
      exact hget k

/-- C2 counterexample: a collection-level data validator that fails with
an empty mapping message contributes nothing, so `validate` does not
raise even though a validator failed — the claimed "raises iff some
validator failed" is false. -/
theorem C2_empty_failure_counterexample :
    ((fun _ => some (Val.dict [])) :
      List (String × Val) → Option Val) [] = some (Val.dict []) ∧
    dataValidate [] [fun _ => some (Val.dict [])] [] = none := by
  constructor
  · rfl
  · simp [dataValidate, dvItems, mergeFailure, dropEmptyKey, dictGet, dictDel]

/-- C2 (amended): `validate` raises a `ValidationError` exactly when the
merged error mapping is non-empty, and the raised mapping agrees key by
key with the mapping described by the specification: per-item failures set
`errors[itemName]`, mapping-shaped data-validator failures merge key by
key (list values extend, other values append), list or scalar failures go
under the empty-string key, and the empty-string key is dropped when it
ends up empty. A data-validator failure carrying an empty mapping or an
empty list contributes nothing, so such a failure alone does not cause a
raise. -/
theorem C2_validate_merge (items : List (String × FieldData))
    (dvs : List (List (String × Val) → Option Val))
    (data : List (String × Val)) :
    (dataValidate items dvs data = none ↔
      specBuiltErrors items dvs data = []) ∧
    (∀ E, dataValidate items dvs data = some E →
      ∀ k, dictGet E k = dictGet (specBuiltErrors items dvs data) k) := by
  have hrel := MergeRel_foldl_dv dvs data _ _
    (MergeRel_dvItems items data _ _ MergeRel_init)
  have hget := fun k => MergeRel_dropEmptyKey_get _ _ hrel k
  have h := C2_final_helper _ _ hget
  rw [dataValidate_eq]
  exact ⟨h.1, h.2⟩

/-- C2 witness: one argument whose validator fails and one collection
validator failing with a scalar message produce both the `username` key
and the top-level `""` key, in agreement with the specification's merge
on every key. -/
theorem C2_validate_merge_witness :
    dataValidate
        [("username", FieldData.mk (Ty.named "String") [VTree.fn alwaysFailA])]
        [fun _ => some (Val.str "d")] [("username", Val.str "u")] =
      some [("", [Val.str "d"]), ("username", [Val.str "a"])] ∧
    dictGet (specBuiltErrors
        [("username", FieldData.mk (Ty.named "String") [VTree.fn alwaysFailA])]
        [fun _ => some (Val.str "d")] [("username", Val.str "u")]) "username" =
      some [Val.str "a"] ∧
    dictGet (specBuiltErrors
        [("username", FieldData.mk (Ty.named "String") [VTree.fn alwaysFailA])]
        [fun _ => some (Val.str "d")] [("username", Val.str "u")]) "" =
      some [Val.str "d"] := by
  have h1 : dictGet [("username", Val.str "u")] "username" =
      some (Val.str "u") := by simp [dictGet]
  have hvv : validate_value (Ty.named "String") [VTree.fn alwaysFailA]
      (Val.str "u") [("username", Val.str "u")] =
      some (Val.list [Val.str "a"]) := by
    simp [validate_value, vvLoop, ioErrsOf, unwrapNonNull, alwaysFailA]
  have hdv : dvItems
      [("username", FieldData.mk (Ty.named "String") [VTree.fn alwaysFailA])]
      [("username", Val.str "u")] [("", [])] =
      [("", []), ("username", [Val.str "a"])] := by
    rw [dvItems_cons_fail _ _ _ _ _ _ _ _ h1 hvv, dvItems_nil]
    rfl
  have heval : dataValidate
      [("username", FieldData.mk (Ty.named "String") [VTree.fn alwaysFailA])]
      [fun _ => some (Val.str "d")] [("username", Val.str "u")] =
      some [("", [Val.str "d"]), ("username", [Val.str "a"])] := by
    rw [dataValidate_eq, hdv]
    rfl
  have h := (C2_validate_merge
    [("username", FieldData.mk (Ty.named "String") [VTree.fn alwaysFailA])]
    [fun _ => some (Val.str "d")] [("username", Val.str "u")]).2 _ heval
  refine ⟨heval, ?_, ?_⟩
  · rw [← h "username"]
    rfl
  · rw [← h ""]
    rfl

end Magql
